import Mathlib

/-!
# Verification of the Junie retrieval-pipeline specification

The repository snapshot contains the web UI code (notably
`components/chat/chat-messages.tsx`) together with contributor
documentation.  The retrieval/ingestion pipeline (Content Extractor,
Chunker, Embedding Generator, Chunk Store Writer, Retriever) is described
by the specification but its implementation files are not part of the
snapshot, so those components are modelled here directly from the
specification's wording and the claims are settled against these models.
The chat-message component, which is present in the snapshot, is embedded
from its TypeScript source.
-/

namespace Junie

/-! ## Chunker (character based)

Modelled from the spec: the Chunker implementation is not in the snapshot.
The spec (§4.2) says: sliding window over the text by a unit of measure;
the window advances by `max_size − overlap` each step; the final chunk may
be shorter than max size; empty input yields an empty sequence.

The recursion is driven by a fuel argument equal to the initial text
length; with `overlap < maxSize` every step strictly shortens the
remaining text, so the fuel never runs out. -/

/-- One step of the sliding-window chunker, with explicit fuel. -/
def chunkTextAux : Nat → List Char → Nat → Nat → List (List Char)
  | 0, _, _, _ => []
  | fuel + 1, text, maxSize, overlap =>
    if text.length = 0 then []
    else if text.length ≤ maxSize then [text]
    else text.take maxSize ::
      chunkTextAux fuel (text.drop (maxSize - overlap)) maxSize overlap

/-- Modelled from the spec: character-based sliding-window chunker with
maximum chunk size `maxSize` and overlap `overlap`. -/
def chunkText (text : List Char) (maxSize overlap : Nat) : List (List Char) :=
  chunkTextAux text.length text maxSize overlap

/-- Concatenation of chunks with the overlapping prefix removed from
every chunk of the list. -/
def dropOverlapConcat (overlap : Nat) (chunks : List (List Char)) : List Char :=
  (chunks.map (List.drop overlap)).flatten

/-- Reassemble a chunk list: the first chunk is kept whole, every later
chunk loses its overlapping prefix. -/
def dechunk (overlap : Nat) : List (List Char) → List Char
  | [] => []
  | c :: rest => c ++ dropOverlapConcat overlap rest

theorem dropOverlapConcat_cons (overlap : Nat) (c : List Char)
    (rest : List (List Char)) :
    dropOverlapConcat overlap (c :: rest) =
      c.drop overlap ++ dropOverlapConcat overlap rest := by
  simp [dropOverlapConcat]

/-- Removing the overlap from *every* chunk of `chunkTextAux` reassembles
the text with its first `overlap` characters removed. -/
theorem dropOverlapConcat_chunkTextAux (maxSize overlap : Nat)
    (h : overlap < maxSize) :
    ∀ fuel text, text.length ≤ fuel →
      dropOverlapConcat overlap (chunkTextAux fuel text maxSize overlap) =
        text.drop overlap := by
  intro fuel
  induction fuel with
  | zero =>
    intro text hlen
    have htext : text = [] := List.eq_nil_of_length_eq_zero (Nat.le_zero.mp hlen)
    subst htext
    simp [chunkTextAux, dropOverlapConcat]
  | succ n ih =>
    intro text hlen
    by_cases h0 : text.length = 0
    · have htext : text = [] := List.eq_nil_of_length_eq_zero h0
      subst htext
      simp [chunkTextAux, dropOverlapConcat]
    · by_cases h1 : text.length ≤ maxSize
      · simp [chunkTextAux, h0, h1, dropOverlapConcat]
      · have hrec : (text.drop (maxSize - overlap)).length ≤ n := by
          simp only [List.length_drop]; omega
        simp only [chunkTextAux, h0, h1, if_false, ite_false]
        rw [dropOverlapConcat_cons, ih _ hrec]
        rw [List.drop_take, List.drop_drop]
        have hm : maxSize - overlap + overlap = maxSize := by omega
        rw [hm]
        have hms : text.drop maxSize = (text.drop overlap).drop (maxSize - overlap) := by
          rw [List.drop_drop]
          have : overlap + (maxSize - overlap) = maxSize := by omega
          rw [this]
        rw [hms, List.take_append_drop]

/-- Round-trip of the chunker: keeping the first chunk whole and removing
the `overlap`-character prefix of every later chunk reassembles the
original text exactly. -/
theorem dechunk_chunkText (text : List Char) (maxSize overlap : Nat)
    (h : overlap < maxSize) :
    dechunk overlap (chunkText text maxSize overlap) = text := by
  unfold chunkText
  by_cases h0 : text.length = 0
  · have htext : text = [] := List.eq_nil_of_length_eq_zero h0
    subst htext
    simp [chunkTextAux, dechunk]
  · by_cases h1 : text.length ≤ maxSize
    · cases hfe : text.length with
      | zero => exact absurd hfe h0
      | succ n =>
        simp only [chunkTextAux, hfe]
        simp only [← hfe, h0, h1, if_false, ite_true, if_true]
        simp [dechunk, dropOverlapConcat, h0, h1]
    · cases hfe : text.length with
      | zero => exact absurd hfe h0
      | succ n =>
        have hrec : (text.drop (maxSize - overlap)).length ≤ n := by
          simp only [List.length_drop]; omega
        simp only [chunkTextAux]
        simp only [h0, h1, if_false, ite_false]
        rw [dechunk, dropOverlapConcat_chunkTextAux maxSize overlap h _ _ hrec]
        rw [List.drop_drop]
        have hm : maxSize - overlap + overlap = maxSize := by omega
        rw [hm, List.take_append_drop]

/-! ## Chunk counting and chunk lengths -/

/-- Ceiling division on naturals. -/
def ceilDiv (a b : Nat) : Nat := (a + b - 1) / b

theorem ceilDiv_zero (b : Nat) (hb : 1 ≤ b) : ceilDiv 0 b = 0 := by
  unfold ceilDiv
  exact Nat.div_eq_of_lt (by omega)

theorem ceilDiv_pos (a b : Nat) (ha : 1 ≤ a) (hb : 1 ≤ b) : 1 ≤ ceilDiv a b := by
  unfold ceilDiv
  rw [Nat.one_le_div_iff (by omega)]
  omega

theorem ceilDiv_le_two (a b : Nat) (hb : 1 ≤ b) (hab : a ≤ 2 * b) :
    ceilDiv a b ≤ 2 := by
  unfold ceilDiv
  have h3 : (a + b - 1) / b < 3 := by
    rw [Nat.div_lt_iff_lt_mul (by omega)]
    omega
  omega

theorem ceilDiv_sub_step (a b : Nat) (hb : 1 ≤ b) (hab : b ≤ a) :
    ceilDiv a b = ceilDiv (a - b) b + 1 := by
  unfold ceilDiv
  have hnum : a + b - 1 = (a - b + b - 1) + b := by omega
  rw [hnum, Nat.add_div_right _ (by omega)]

/-- Every chunk produced by the chunker has length at most `maxSize`. -/
theorem chunkTextAux_length_le (maxSize overlap : Nat) :
    ∀ fuel text c, c ∈ chunkTextAux fuel text maxSize overlap →
      c.length ≤ maxSize := by
  intro fuel
  induction fuel with
  | zero => intro text c hc; simp [chunkTextAux] at hc
  | succ n ih =>
    intro text c hc
    by_cases h0 : text.length = 0
    · simp [chunkTextAux, h0] at hc
    · by_cases h1 : text.length ≤ maxSize
      · simp [chunkTextAux, h0, h1] at hc
        subst hc; exact h1
      · simp only [chunkTextAux, h0, h1, if_false, ite_false, List.mem_cons] at hc
        rcases hc with hc | hc
        · subst hc
          simp [List.length_take]
        · exact ih _ _ hc

/-- Chunk count of the chunker is `⌈len / (maxSize − overlap)⌉` within
±1, provided the overlap is at most half the maximum size. -/
theorem chunkTextAux_count (maxSize overlap : Nat)
    (h : overlap < maxSize) (h2 : 2 * overlap ≤ maxSize) :
    ∀ fuel text, text.length ≤ fuel →
      (chunkTextAux fuel text maxSize overlap).length ≤
          ceilDiv text.length (maxSize - overlap) ∧
        ceilDiv text.length (maxSize - overlap) ≤
          (chunkTextAux fuel text maxSize overlap).length + 1 := by
  intro fuel
  have hstep : 1 ≤ maxSize - overlap := by omega
  induction fuel with
  | zero =>
    intro text hlen
    have htext : text = [] := List.eq_nil_of_length_eq_zero (Nat.le_zero.mp hlen)
    subst htext
    simp [chunkTextAux, ceilDiv_zero _ hstep]
  | succ n ih =>
    intro text hlen
    by_cases h0 : text.length = 0
    · have htext : text = [] := List.eq_nil_of_length_eq_zero h0
      subst htext
      simp [chunkTextAux, ceilDiv_zero _ hstep]
    · by_cases h1 : text.length ≤ maxSize
      · have hone : 1 ≤ ceilDiv text.length (maxSize - overlap) :=
          ceilDiv_pos _ _ (by omega) hstep
        have htwo : ceilDiv text.length (maxSize - overlap) ≤ 2 :=
          ceilDiv_le_two _ _ hstep (by omega)
        simp only [chunkTextAux, h0, h1, if_false, ite_true, if_true,
          List.length_cons, List.length_nil]
        omega
      · have hrec : (text.drop (maxSize - overlap)).length ≤ n := by
          simp only [List.length_drop]; omega
        have hih := ih (text.drop (maxSize - overlap)) hrec
        simp only [List.length_drop] at hih
        have hsplit : ceilDiv text.length (maxSize - overlap) =
            ceilDiv (text.length - (maxSize - overlap)) (maxSize - overlap) + 1 :=
          ceilDiv_sub_step _ _ hstep (by omega)
        simp only [chunkTextAux, h0, h1, if_false, ite_false, List.length_cons]
        omega

/-- Length-level mirror of the chunker: computes the sequence of chunk
lengths from the input length alone. -/
def chunkLensAux : Nat → Nat → Nat → Nat → List Nat
  | 0, _, _, _ => []
  | fuel + 1, n, maxSize, overlap =>
    if n = 0 then []
    else if n ≤ maxSize then [n]
    else maxSize :: chunkLensAux fuel (n - (maxSize - overlap)) maxSize overlap

/-- Chunk lengths depend only on the length of the input text. -/
theorem map_length_chunkTextAux (maxSize overlap : Nat) :
    ∀ fuel text, (chunkTextAux fuel text maxSize overlap).map List.length =
      chunkLensAux fuel text.length maxSize overlap := by
  intro fuel
  induction fuel with
  | zero => intro text; simp [chunkTextAux, chunkLensAux]
  | succ n ih =>
    intro text
    by_cases h0 : text.length = 0
    · simp [chunkTextAux, chunkLensAux, h0]
    · by_cases h1 : text.length ≤ maxSize
      · simp [chunkTextAux, chunkLensAux, h0, h1]
      · simp only [chunkTextAux, chunkLensAux, h0, h1, if_false, ite_false,
          List.map_cons]
        rw [ih]
        simp only [List.length_take, List.length_drop]
        congr 1
        omega

theorem map_length_chunkText (text : List Char) (maxSize overlap : Nat) :
    (chunkText text maxSize overlap).map List.length =
      chunkLensAux text.length text.length maxSize overlap := by
  unfold chunkText
  exact map_length_chunkTextAux maxSize overlap text.length text

/-! ## Chunker (token/word based)

Modelled from the spec: §4.2 also allows the sliding window to advance by
a token count, and states the edge-case policy for single oversized
tokens.  The token-level chunker below greedily packs whitespace-separated
words into chunks whose rendered character count (word lengths plus one
separator between adjacent words) stays within the maximum; a word that
does not fit starts a new chunk. -/

/-- Rendered character count of a chunk of words: the word lengths plus
one separator character between adjacent words. -/
def chunkChars (c : List (List Char)) : Nat :=
  (c.map List.length).sum + (c.length - 1)

/-- Greedy packer: `cur` is the chunk under construction. -/
def packWordsAux (maxSize : Nat) (cur : List (List Char)) :
    List (List Char) → List (List (List Char))
  | [] => if cur = [] then [] else [cur]
  | w :: ws =>
    if cur = [] then packWordsAux maxSize [w] ws
    else if chunkChars cur + 1 + w.length ≤ maxSize then
      packWordsAux maxSize (cur ++ [w]) ws
    else cur :: packWordsAux maxSize [w] ws

/-- Modelled from the spec: token-based chunker packing a word sequence
into chunks of at most `maxSize` rendered characters. -/
def packWords (maxSize : Nat) (ws : List (List Char)) : List (List (List Char)) :=
  packWordsAux maxSize [] ws

theorem packWordsAux_oversized_cur (maxSize : Nat) (w : List Char)
    (hw : maxSize < w.length) :
    ∀ ws, [w] ∈ packWordsAux maxSize [w] ws := by
  intro ws
  cases ws with
  | nil => simp [packWordsAux]
  | cons u us =>
    have hne : ¬([w] = ([] : List (List Char))) := by simp
    have hfit : ¬(chunkChars [w] + 1 + u.length ≤ maxSize) := by
      simp [chunkChars]; omega
    simp [packWordsAux, hne, hfit]

theorem packWordsAux_oversized (maxSize : Nat) (w : List Char)
    (hw : maxSize < w.length) :
    ∀ ws cur, w ∈ ws → [w] ∈ packWordsAux maxSize cur ws := by
  intro ws
  induction ws with
  | nil => intro cur hmem; simp at hmem
  | cons u us ih =>
    intro cur hmem
    rcases List.mem_cons.mp hmem with hw' | hmem'
    · subst hw'
      by_cases hcur : cur = []
      · simp only [packWordsAux, hcur, if_true, ite_true]
        exact packWordsAux_oversized_cur maxSize w hw us
      · have hfit : ¬(chunkChars cur + 1 + w.length ≤ maxSize) := by omega
        simp only [packWordsAux, hcur, hfit, if_false, ite_false, List.mem_cons]
        exact Or.inr (packWordsAux_oversized_cur maxSize w hw us)
    · by_cases hcur : cur = []
      · simp only [packWordsAux, hcur, if_true, ite_true]
        exact ih [u] hmem'
      · by_cases hfit : chunkChars cur + 1 + u.length ≤ maxSize
        · simp only [packWordsAux, hcur, hfit, if_false, ite_false, if_true,
            ite_true]
          exact ih (cur ++ [u]) hmem'
        · simp only [packWordsAux, hcur, hfit, if_false, ite_false, List.mem_cons]
          exact Or.inr (ih [u] hmem')

/-! ## Embedding Generator

Modelled from the spec: §4.3 describes the Embedding Generator as a pure
capability `embed(text) → vector` producing a fixed-dimension numeric
vector, deterministic in the text and the model version.  Vectors are
modelled over the integers: the ranking and determinism properties at
issue do not depend on the scalar type. -/

/-- Dimension of the embedding space of a given model version. -/
def embedDim (model : Nat) : Nat := model + 4

/-- Modelled from the spec: deterministic embedding of a text under a
given model version, as a pure function producing `embedDim model`
components. -/
def embed (model : Nat) (text : List Char) : List Int :=
  (List.range (embedDim model)).map
    (fun i => (((text.map Char.toNat).sum + i * (model + 1)) % 1000 : Nat))

theorem length_embed (model : Nat) (text : List Char) :
    (embed model text).length = embedDim model := by
  simp [embed]

/-- Squared Euclidean distance between two integer vectors, as a natural
number. -/
def dist2 (u v : List Int) : Nat :=
  (List.zipWith (fun a b => ((a - b) * (a - b)).toNat) u v).sum

theorem dist2_self (v : List Int) : dist2 v v = 0 := by
  induction v with
  | nil => rfl
  | cons a as ih => simp [dist2]

/-! ## Chunk Store Writer

Modelled from the spec: §4.4 and §6 describe the Writer's contract — rows
keyed by (file id, ordinal), each row carrying text, vector and workspace
id; persisting a file's chunks replaces any prior rows of that file and
is atomic as a unit.  An interrupted write is modelled by the observable
commit points the spec's transaction-boundary design allows: either
nothing committed yet, the delete of the prior rows committed but the
insert batch rolled back, or the whole write committed.  A mid-batch
interruption of the insert never exposes a partial row set because the
batch is a single transaction. -/

/-- A persisted chunk row. -/
structure Row where
  fileId : Nat
  workspaceId : Nat
  ordinal : Nat
  content : List Char
  vec : List Int
deriving DecidableEq

/-- The chunk store: the list of persisted rows in insertion order. -/
def Store := List Row

/-- The rows produced for one file from its chunk list, ordinals assigned
in chunk order, vectors produced by the embedding model. -/
def rowsFor (fid wid model : Nat) (chunks : List (List Char)) : List Row :=
  chunks.enum.map (fun p => Row.mk fid wid p.1 p.2 (embed model p.2))

/-- Delete all rows of one file. -/
def deleteFileRows (store : List Row) (fid : Nat) : List Row :=
  store.filter (fun r => !(r.fileId == fid))

/-- Modelled from the spec: atomic replace-write of a file's chunks —
prior rows of the file are deleted and the new rows appended. -/
def writeChunks (store : List Row) (fid wid model : Nat)
    (chunks : List (List Char)) : List Row :=
  deleteFileRows store fid ++ rowsFor fid wid model chunks

/-- Read back the rows of one file, in store order. -/
def readFileRows (store : List Row) (fid : Nat) : List Row :=
  store.filter (fun r => r.fileId == fid)

/-- The observable commit points of a (possibly interrupted) write. -/
inductive WritePoint
  | beforeDelete
  | afterDelete
  | completed
deriving DecidableEq

/-- Modelled from the spec: the store state visible after the Writer was
interrupted at a given commit point.  The insert batch is one
transaction, so an interruption inside it rolls back to the
`afterDelete` state. -/
def writeChunksInterrupted (store : List Row) (fid wid model : Nat)
    (chunks : List (List Char)) : WritePoint → List Row
  | WritePoint.beforeDelete => store
  | WritePoint.afterDelete => deleteFileRows store fid
  | WritePoint.completed => writeChunks store fid wid model chunks

theorem mem_rowsFor_fileId (fid wid model : Nat) (chunks : List (List Char))
    (r : Row) (hr : r ∈ rowsFor fid wid model chunks) : r.fileId = fid := by
  simp only [rowsFor, List.mem_map] at hr
  obtain ⟨p, _, hp⟩ := hr
  rw [← hp]

theorem readFileRows_deleteFileRows (store : List Row) (fid : Nat) :
    readFileRows (deleteFileRows store fid) fid = [] := by
  simp only [readFileRows, deleteFileRows, List.filter_filter]
  rw [List.filter_eq_nil_iff]
  intro r _
  simp

theorem readFileRows_rowsFor (fid wid model : Nat) (chunks : List (List Char)) :
    readFileRows (rowsFor fid wid model chunks) fid =
      rowsFor fid wid model chunks := by
  unfold readFileRows
  rw [List.filter_eq_self]
  intro r hr
  simp [mem_rowsFor_fileId fid wid model chunks r hr]

theorem readFileRows_writeChunks (store : List Row) (fid wid model : Nat)
    (chunks : List (List Char)) :
    readFileRows (writeChunks store fid wid model chunks) fid =
      rowsFor fid wid model chunks := by
  unfold writeChunks readFileRows
  rw [List.filter_append]
  rw [show List.filter (fun r => r.fileId == fid) (deleteFileRows store fid) =
      readFileRows (deleteFileRows store fid) fid from rfl]
  rw [readFileRows_deleteFileRows]
  rw [show List.filter (fun r => r.fileId == fid) (rowsFor fid wid model chunks) =
      readFileRows (rowsFor fid wid model chunks) fid from rfl]
  rw [readFileRows_rowsFor]
  simp

theorem readFileRows_writeChunks_other (store : List Row) (fid wid model g : Nat)
    (chunks : List (List Char)) (hg : g ≠ fid) :
    readFileRows (writeChunks store fid wid model chunks) g =
      readFileRows store g := by
  unfold writeChunks readFileRows deleteFileRows
  rw [List.filter_append, List.filter_filter]
  have hnew : List.filter (fun r => r.fileId == g) (rowsFor fid wid model chunks)
      = [] := by
    rw [List.filter_eq_nil_iff]
    intro r hr
    simp [mem_rowsFor_fileId fid wid model chunks r hr]
    omega
  rw [hnew, List.append_nil]
  rw [List.filter_congr]
  intro r _
  by_cases h : r.fileId = g
  · simp [h]; omega
  · simp [h]

/-! ## Retriever

Modelled from the spec: §4.5 — given a workspace id, a query vector and a
count `k`, return the `k` chunks of that workspace with smallest vector
distance, ties broken by insertion order (earlier chunk wins), fewer than
`k` results when the workspace has fewer chunks, the empty sequence when
it has none.  The ranking is realised by a stable insertion sort on the
workspace-filtered store, keyed by squared Euclidean distance. -/

/-- The rows of one workspace, in insertion order. -/
def filterWs (wid : Nat) (store : List Row) : List Row :=
  store.filter (fun r => r.workspaceId == wid)

/-- Insert a row into a distance-ranked list, before the first row at
equal or larger distance (so the earlier-inserted row wins ties). -/
def insertByDist (q : List Int) (r : Row) : List Row → List Row
  | [] => [r]
  | x :: xs =>
    if dist2 q r.vec ≤ dist2 q x.vec then r :: x :: xs
    else x :: insertByDist q r xs

/-- Stable insertion sort by distance to the query vector. -/
def sortByDist (q : List Int) : List Row → List Row
  | [] => []
  | x :: xs => insertByDist q x (sortByDist q xs)

/-- Modelled from the spec: the Retriever — rank the rows of the
workspace by distance to the query vector and return the first `k`. -/
def retrieve (store : List Row) (wid : Nat) (q : List Int) (k : Nat) :
    List Row :=
  (sortByDist q (filterWs wid store)).take k

theorem insertByDist_eq_cons (q : List Int) (r x : Row) (xs : List Row)
    (h : dist2 q r.vec ≤ dist2 q x.vec) :
    insertByDist q r (x :: xs) = r :: x :: xs := by
  simp [insertByDist, h]

theorem insertByDist_eq_skip (q : List Int) (r x : Row) (xs : List Row)
    (h : ¬(dist2 q r.vec ≤ dist2 q x.vec)) :
    insertByDist q r (x :: xs) = x :: insertByDist q r xs := by
  simp [insertByDist, h]

theorem insertByDist_perm (q : List Int) (r : Row) (l : List Row) :
    List.Perm (insertByDist q r l) (r :: l) := by
  induction l with
  | nil => exact List.Perm.refl [r]
  | cons x xs ih =>
    by_cases h : dist2 q r.vec ≤ dist2 q x.vec
    · rw [insertByDist_eq_cons q r x xs h]
    · rw [insertByDist_eq_skip q r x xs h]
      exact (List.Perm.cons x ih).trans (List.Perm.swap r x xs)

theorem sortByDist_perm (q : List Int) (l : List Row) :
    List.Perm (sortByDist q l) l := by
  induction l with
  | nil => exact List.Perm.refl []
  | cons x xs ih =>
    exact (insertByDist_perm q x (sortByDist q xs)).trans (List.Perm.cons x ih)

theorem length_sortByDist (q : List Int) (l : List Row) :
    (sortByDist q l).length = l.length :=
  (sortByDist_perm q l).length_eq

theorem mem_sortByDist (q : List Int) (l : List Row) (r : Row) :
    r ∈ sortByDist q l ↔ r ∈ l :=
  (sortByDist_perm q l).mem_iff

theorem head?_insertByDist_zero (q : List Int) (r : Row) (l : List Row)
    (hr : dist2 q r.vec = 0) : (insertByDist q r l).head? = some r := by
  cases l with
  | nil => rfl
  | cons x xs =>
    have h : dist2 q r.vec ≤ dist2 q x.vec := by omega
    simp [insertByDist, h]

/-- The head of the ranked list is the earliest-inserted row at distance
zero, whenever one exists. -/
theorem head?_sortByDist_find (q : List Int) :
    ∀ l x, l.find? (fun r => dist2 q r.vec == 0) = some x →
      (sortByDist q l).head? = some x := by
  intro l
  induction l with
  | nil => intro x hx; simp at hx
  | cons r rs ih =>
    intro x hx
    have hunfold : sortByDist q (r :: rs) = insertByDist q r (sortByDist q rs) :=
      rfl
    by_cases hp : dist2 q r.vec = 0
    · have hfind : (r :: rs).find? (fun r => dist2 q r.vec == 0) = some r := by
        simp [List.find?_cons, hp]
      rw [hfind] at hx
      injection hx with hx
      rw [hunfold, ← hx]
      exact head?_insertByDist_zero q r (sortByDist q rs) hp
    · have hstep : (r :: rs).find? (fun r => dist2 q r.vec == 0) =
          rs.find? (fun r => dist2 q r.vec == 0) := by
        simp [List.find?_cons, hp]
      rw [hstep] at hx
      have hhead := ih x hx
      have hx0 : dist2 q x.vec = 0 := by
        have := List.find?_some hx
        simpa using this
      cases hsort : sortByDist q rs with
      | nil => rw [hsort] at hhead; simp at hhead
      | cons y ys =>
        rw [hsort] at hhead
        simp only [List.head?_cons, Option.some.injEq] at hhead
        have hy0 : dist2 q y.vec = 0 := by rw [hhead]; exact hx0
        have hcond : ¬(dist2 q r.vec ≤ dist2 q y.vec) := by omega
        rw [hunfold, hsort, insertByDist_eq_skip q r y ys hcond]
        simp [hhead]

/-- Filtering the ranked list to one exact distance value returns those
rows in store (insertion) order: the sort is stable. -/
theorem filter_insertByDist (q : List Int) (n : Nat) (r : Row) :
    ∀ l, (insertByDist q r l).filter (fun x => dist2 q x.vec == n) =
      if dist2 q r.vec = n then
        r :: l.filter (fun x => dist2 q x.vec == n)
      else l.filter (fun x => dist2 q x.vec == n) := by
  intro l
  induction l with
  | nil =>
    by_cases hr : dist2 q r.vec = n <;> simp [insertByDist, hr]
  | cons x xs ih =>
    by_cases hc : dist2 q r.vec ≤ dist2 q x.vec
    · rw [insertByDist_eq_cons q r x xs hc]
      by_cases hr : dist2 q r.vec = n <;> simp [List.filter_cons, hr]
    · rw [insertByDist_eq_skip q r x xs hc]
      by_cases hr : dist2 q r.vec = n
      · have hx : ¬(dist2 q x.vec = n) := by omega
        simp [List.filter_cons, hr, hx, ih]
      · by_cases hx : dist2 q x.vec = n <;>
          simp [List.filter_cons, hr, hx, ih]

theorem filter_sortByDist (q : List Int) (n : Nat) :
    ∀ l, (sortByDist q l).filter (fun x => dist2 q x.vec == n) =
      l.filter (fun x => dist2 q x.vec == n) := by
  intro l
  induction l with
  | nil => rfl
  | cons x xs ih =>
    by_cases hx : dist2 q x.vec = n <;>
      simp [sortByDist, filter_insertByDist, hx, ih]

theorem head?_take (k : Nat) (hk : 1 ≤ k) (l : List Row) :
    (l.take k).head? = l.head? := by
  cases l with
  | nil => simp
  | cons a as =>
    cases k with
    | zero => omega
    | succ k' => simp [List.take_succ_cons]

theorem find?_exists_of_mem (p : Row → Bool) :
    ∀ l : List Row, ∀ x ∈ l, p x = true → ∃ y, l.find? p = some y := by
  intro l
  induction l with
  | nil => intro x hx; simp at hx
  | cons a as ih =>
    intro x hx hpx
    by_cases hpa : p a = true
    · exact ⟨a, by simp [List.find?_cons, hpa]⟩
    · rcases List.mem_cons.mp hx with h | h
      · subst h; exact absurd hpx hpa
      · obtain ⟨y, hy⟩ := ih x h hpx
        exact ⟨y, by simp [List.find?_cons, hpa, hy]⟩

/-! ## ChatMessages component (`components/chat/chat-messages.tsx`)

Embedded from the TypeScript source.  A message row carries an id and a
sequence number; a chat message couples the row with the list of
file-item ids attached to it; a file item carries its id and content.
The component state holds the message list, the delete-dialog flag and
the id pending deletion. -/

/-- A `messages` table row (the fields the component reads). -/
structure MessageT where
  id : List Char
  sequence_number : Int
deriving DecidableEq

/-- A chat message as held in `chatMessages` context state. -/
structure ChatMessageT where
  message : MessageT
  fileItems : List (List Char)
deriving DecidableEq

/-- A `file_items` table row (the fields the component reads). -/
structure FileItemT where
  id : List Char
  content : List Char
deriving DecidableEq

/-- The component state touched by `confirmDeleteMessage`. -/
structure ChatState where
  chatMessages : List ChatMessageT
  showDeleteDialog : Bool
  deletingMessageId : Option (List Char)
deriving DecidableEq

/-- `confirmDeleteMessage` from `chat-messages.tsx` (lines 45–65).
`dbOk` tells whether the awaited `deleteMessage` database call resolves
(`true`) or throws (`false`).  The guard `if (!deletingMessageId) return`
is falsy for both `null` and the empty string; on success the local list
is filtered by message id; the `finally` block always closes the dialog
and clears the pending id. -/
def confirmDeleteMessage (st : ChatState) (dbOk : Bool) : ChatState :=
  match st.deletingMessageId with
  | none => st
  | some mid =>
    if mid = [] then st
    else if dbOk then
      { chatMessages := st.chatMessages.filter (fun m => !(m.message.id == mid)),
        showDeleteDialog := false,
        deletingMessageId := none }
    else
      { st with showDeleteDialog := false, deletingMessageId := none }

/-- The `chatFileItems.filter((chatFileItem, _, self) => ...)` expression
of `chat-messages.tsx` (lines 80–84), with the JavaScript callback's
index argument made explicit: an element is kept when its id is among
the message's file-item ids and its index equals the index of the first
element of `chatFileItems` carrying the same id. -/
def messageFileItemsAux (chatFileItems : List FileItemT)
    (ids : List (List Char)) : Nat → List FileItemT → List FileItemT
  | _, [] => []
  | i, x :: xs =>
    if ids.contains x.id &&
        (chatFileItems.findIdx (fun it => it.id == x.id) == i) then
      x :: messageFileItemsAux chatFileItems ids (i + 1) xs
    else
      messageFileItemsAux chatFileItems ids (i + 1) xs

/-- The file items passed to one rendered `Message`. -/
def messageFileItems (chatFileItems : List FileItemT)
    (ids : List (List Char)) : List FileItemT :=
  messageFileItemsAux chatFileItems ids 0 chatFileItems

/-- Modelled from the spec side of claim C10: keep exactly the elements
whose id appears in the message's file-item id list, dropping every
occurrence of an id after the first (`seen` accumulates the ids already
passed). -/
def specFileItemsAux (ids : List (List Char)) (seen : List (List Char)) :
    List FileItemT → List FileItemT
  | [] => []
  | x :: xs =>
    if ids.contains x.id && !(seen.contains x.id) then
      x :: specFileItemsAux ids (x.id :: seen) xs
    else
      specFileItemsAux ids (x.id :: seen) xs

/-- Spec-side description of the file items passed to one message:
matching ids, duplicates removed keeping first occurrences. -/
def specFileItems (chatFileItems : List FileItemT)
    (ids : List (List Char)) : List FileItemT :=
  specFileItemsAux ids [] chatFileItems

theorem findIdx_first_occurrence (z : FileItemT) :
    ∀ (pre rest : List FileItemT), (∀ y ∈ pre, y.id ≠ z.id) →
      (pre ++ z :: rest).findIdx (fun it => it.id == z.id) = pre.length := by
  intro pre
  induction pre with
  | nil => intro rest _; simp [List.findIdx_cons]
  | cons a pre' ih =>
    intro rest hpre
    have ha : ¬(a.id = z.id) := hpre a (List.mem_cons_self a pre')
    have hab : (a.id == z.id) = false := by simp [ha]
    have hpre' : ∀ y ∈ pre', y.id ≠ z.id := fun y hy =>
      hpre y (List.mem_cons_of_mem a hy)
    simp only [List.cons_append, List.findIdx_cons, hab, cond_false,
      List.length_cons]
    rw [ih rest hpre']

theorem findIdx_earlier_occurrence (z : FileItemT) :
    ∀ (pre rest : List FileItemT), (∃ y ∈ pre, y.id = z.id) →
      (pre ++ z :: rest).findIdx (fun it => it.id == z.id) < pre.length := by
  intro pre
  induction pre with
  | nil => intro rest h; simp at h
  | cons a pre' ih =>
    intro rest h
    by_cases ha : a.id = z.id
    · have hab : (a.id == z.id) = true := by simp [ha]
      simp only [List.cons_append, List.findIdx_cons, hab, cond_true,
        List.length_cons]
      omega
    · obtain ⟨y, hy, hyz⟩ := h
      rcases List.mem_cons.mp hy with hya | hy'
      · subst hya; exact absurd hyz ha
      · have hlt := ih rest ⟨y, hy', hyz⟩
        have hab : (a.id == z.id) = false := by simp [ha]
        simp only [List.cons_append, List.findIdx_cons, hab, cond_false,
          List.length_cons]
        omega

/-- The component's indexed filter agrees step by step with the
spec-side first-occurrence filter. -/
theorem messageFileItemsAux_eq_spec (ids : List (List Char)) :
    ∀ (rest pre : List FileItemT) (seen : List (List Char)),
      (∀ a, a ∈ seen ↔ ∃ y ∈ pre, y.id = a) →
      messageFileItemsAux (pre ++ rest) ids pre.length rest =
        specFileItemsAux ids seen rest := by
  intro rest
  induction rest with
  | nil => intro pre seen _; rfl
  | cons x xs ih =>
    intro pre seen hseen
    have hpre1 : pre ++ x :: xs = (pre ++ [x]) ++ xs := by simp
    have hlen1 : pre.length + 1 = (pre ++ [x]).length := by simp
    have hseen1 : ∀ a, a ∈ x.id :: seen ↔ ∃ y ∈ pre ++ [x], y.id = a := by
      intro a
      constructor
      · intro h
        rcases List.mem_cons.mp h with h | h
        · exact ⟨x, by simp, h.symm⟩
        · obtain ⟨y, hy, hyz⟩ := (hseen a).mp h
          exact ⟨y, by simp [hy], hyz⟩
      · rintro ⟨y, hy, hyz⟩
        rcases List.mem_append.mp hy with hy' | hy'
        · exact List.mem_cons.mpr (Or.inr ((hseen a).mpr ⟨y, hy', hyz⟩))
        · have hyx : y = x := by simpa using hy'
          subst hyx
          exact List.mem_cons.mpr (Or.inl hyz.symm)
    have hrec : messageFileItemsAux (pre ++ x :: xs) ids (pre.length + 1) xs =
        specFileItemsAux ids (x.id :: seen) xs := by
      rw [hpre1, hlen1]
      exact ih (pre ++ [x]) (x.id :: seen) hseen1
    by_cases hs : ∃ y ∈ pre, y.id = x.id
    · have hseenx : x.id ∈ seen := (hseen x.id).mpr hs
      have hlt := findIdx_earlier_occurrence x pre xs hs
      have hcode : ((pre ++ x :: xs).findIdx (fun it => it.id == x.id) ==
          pre.length) = false := by
        simp only [beq_eq_false_iff_ne, ne_eq]
        omega
      have hspec : seen.contains x.id = true := by
        simp only [List.elem_iff]
        exact hseenx
      simp only [messageFileItemsAux, specFileItemsAux, hcode, hspec,
        Bool.and_false, Bool.not_true, ite_false, if_false]
      exact hrec
    · have hnotseen : ¬(x.id ∈ seen) := fun hmem => hs ((hseen x.id).mp hmem)
      have hall : ∀ y ∈ pre, y.id ≠ x.id := by
        intro y hy hyz
        exact hs ⟨y, hy, hyz⟩
      have hfi := findIdx_first_occurrence x pre xs hall
      have hcode : ((pre ++ x :: xs).findIdx (fun it => it.id == x.id) ==
          pre.length) = true := by
        simp [hfi]
      have hspec : seen.contains x.id = false := by
        simp only [Bool.eq_false_iff, ne_eq, List.elem_iff]
        exact hnotseen
      simp only [messageFileItemsAux, specFileItemsAux, hcode, hspec,
        Bool.and_true, Bool.not_false]
      by_cases hid : ids.contains x.id = true
      · simp only [hid, if_true, ite_true]
        rw [hrec]
      · simp only [Bool.not_eq_true] at hid
        simp only [hid, if_false, ite_false]
        exact hrec

/-- The rendered file-item list equals its spec-side description. -/
theorem messageFileItems_eq_spec (chatFileItems : List FileItemT)
    (ids : List (List Char)) :
    messageFileItems chatFileItems ids = specFileItems chatFileItems ids := by
  unfold messageFileItems specFileItems
  have h := messageFileItemsAux_eq_spec ids chatFileItems [] []
    (by intro a; simp)
  simpa using h

/-! ## Claim theorems -/

/-- Claim C1: for every text and parameters `maxSize`, `overlap` with
`overlap < maxSize`, removing the overlapping prefix from each chunk
after the first and concatenating all chunks produced by the Chunker
reproduces the text exactly. -/
theorem claim_C1_chunker_roundtrip (text : List Char) (maxSize overlap : Nat)
    (h : overlap < maxSize) :
    dechunk overlap (chunkText text maxSize overlap) = text :=
  dechunk_chunkText text maxSize overlap h

theorem claim_C1_witness :
    (1 : Nat) < 3 ∧
      dechunk 1 (chunkText ['a', 'b', 'c', 'd', 'e'] 3 1) =
        ['a', 'b', 'c', 'd', 'e'] :=
  ⟨by decide, claim_C1_chunker_roundtrip ['a', 'b', 'c', 'd', 'e'] 3 1 (by decide)⟩

/-- Claim C2 counterexample: with max size 10 and overlap 8 (so
`overlap < maxSize` holds) on a 100-character text, the Chunker produces
46 chunks while `⌈100 / (10 − 8)⌉ = 50`, which is not within ±1. -/
theorem claim_C2_counterexample :
    (8 : Nat) < 10 ∧
      (chunkText (List.replicate 100 'a') 10 8).length + 1 <
        ceilDiv (List.replicate 100 'a').length (10 - 8) := by
  decide

/-- Claim C2 (amended): when additionally the overlap is at most half the
max size (`2 * overlap ≤ maxSize`), the number of chunks is
`⌈len / (maxSize − overlap)⌉` within ±1, and every chunk's length is at
most `maxSize`. -/
theorem claim_C2_chunk_count_and_size (text : List Char)
    (maxSize overlap : Nat) (h : overlap < maxSize)
    (h2 : 2 * overlap ≤ maxSize) :
    ((chunkText text maxSize overlap).length ≤
        ceilDiv text.length (maxSize - overlap) ∧
      ceilDiv text.length (maxSize - overlap) ≤
        (chunkText text maxSize overlap).length + 1) ∧
    ∀ c ∈ chunkText text maxSize overlap, c.length ≤ maxSize := by
  constructor
  · exact chunkTextAux_count maxSize overlap h h2 text.length text le_rfl
  · intro c hc
    exact chunkTextAux_length_le maxSize overlap text.length text c hc

theorem claim_C2_witness :
    ((1 : Nat) < 4 ∧ 2 * 1 ≤ 4) ∧
      (((chunkText (List.replicate 10 'a') 4 1).length ≤
          ceilDiv (List.replicate 10 'a').length (4 - 1) ∧
        ceilDiv (List.replicate 10 'a').length (4 - 1) ≤
          (chunkText (List.replicate 10 'a') 4 1).length + 1) ∧
      ∀ c ∈ chunkText (List.replicate 10 'a') 4 1, c.length ≤ 4) :=
  ⟨by decide,
   claim_C2_chunk_count_and_size (List.replicate 10 'a') 4 1
     (by decide) (by decide)⟩

/-- Claim C3 counterexample: a 1000-character text chunked with max size
300 and overlap 50 yields chunk sizes [300, 300, 300, 250], not
[300, 300, 300, 150]. -/
theorem claim_C3_counterexample :
    (chunkText (List.replicate 1000 'a') 300 50).map List.length ≠
      [300, 300, 300, 150] := by
  rw [map_length_chunkText]
  simp only [List.length_replicate]
  decide

/-- Claim C3 (amended): a 1000-character text with max chunk size 300 and
overlap 50 produces exactly 4 chunks of sizes [300, 300, 300, 250]
(window steps of 250), and reprocessing the same file leaves exactly
those 4 rows for the file — the prior 4 are replaced, no stale row
remains. -/
theorem claim_C3_end_to_end (text : List Char) (store : List Row)
    (fid wid model : Nat) (hlen : text.length = 1000) :
    (chunkText text 300 50).map List.length = [300, 300, 300, 250] ∧
    readFileRows
        (writeChunks (writeChunks store fid wid model (chunkText text 300 50))
          fid wid model (chunkText text 300 50)) fid =
      rowsFor fid wid model (chunkText text 300 50) ∧
    (readFileRows
        (writeChunks (writeChunks store fid wid model (chunkText text 300 50))
          fid wid model (chunkText text 300 50)) fid).length = 4 := by
  have hsizes : (chunkText text 300 50).map List.length = [300, 300, 300, 250] := by
    rw [map_length_chunkText, hlen]
    decide
  have hread := readFileRows_writeChunks
    (writeChunks store fid wid model (chunkText text 300 50))
    fid wid model (chunkText text 300 50)
  refine ⟨hsizes, hread, ?_⟩
  rw [hread]
  have hc : (chunkText text 300 50).length = 4 := by
    have := congrArg List.length hsizes
    simpa using this
  simp [rowsFor, List.enum_length, hc]

theorem claim_C3_witness :
    (List.replicate 1000 'a').length = 1000 ∧
      (chunkText (List.replicate 1000 'a') 300 50).map List.length =
        [300, 300, 300, 250] :=
  ⟨List.length_replicate 1000 'a',
   (claim_C3_end_to_end (List.replicate 1000 'a') [] 1 1 0
      (List.length_replicate 1000 'a')).1⟩

/-- Claim C4: a single token/word longer than the max chunk size does not
make the token Chunker fail — the word is emitted as a chunk of its own
(necessarily oversized). -/
theorem claim_C4_oversized_token (maxSize : Nat) (w : List Char)
    (ws : List (List Char)) (hmem : w ∈ ws) (hw : maxSize < w.length) :
    [w] ∈ packWords maxSize ws :=
  packWordsAux_oversized maxSize w hw ws [] hmem

theorem claim_C4_witness :
    ['a', 'a', 'a'] ∈ [['b'], ['a', 'a', 'a'], ['c']] ∧
      (2 : Nat) < (['a', 'a', 'a'] : List Char).length ∧
      [['a', 'a', 'a']] ∈ packWords 2 [['b'], ['a', 'a', 'a'], ['c']] :=
  ⟨by decide, by decide,
   claim_C4_oversized_token 2 ['a', 'a', 'a'] [['b'], ['a', 'a', 'a'], ['c']]
     (by decide) (by decide)⟩

/-- Claim C5: a write interrupted before completion leaves a subsequent
read of the file's rows with either the previous complete set or the
empty set, never a partial new set; a completed (re-)write replaces the
file's rows exactly and leaves every other file's rows unchanged. -/
theorem claim_C5_writer_atomic_replace (store : List Row)
    (fid wid model : Nat) (chunks : List (List Char)) (p : WritePoint) :
    (p ≠ WritePoint.completed →
      readFileRows (writeChunksInterrupted store fid wid model chunks p) fid =
          readFileRows store fid ∨
        readFileRows (writeChunksInterrupted store fid wid model chunks p) fid
          = []) ∧
    readFileRows (writeChunks store fid wid model chunks) fid =
      rowsFor fid wid model chunks ∧
    ∀ g, g ≠ fid →
      readFileRows (writeChunks store fid wid model chunks) g =
        readFileRows store g := by
  refine ⟨?_, readFileRows_writeChunks store fid wid model chunks, ?_⟩
  · intro hp
    cases p with
    | beforeDelete => exact Or.inl rfl
    | afterDelete => exact Or.inr (readFileRows_deleteFileRows store fid)
    | completed => exact absurd rfl hp
  · intro g hg
    exact readFileRows_writeChunks_other store fid wid model g chunks hg

theorem claim_C5_witness :
    (readFileRows
        (writeChunksInterrupted [Row.mk 1 1 0 ['a'] [1]] 1 1 0 [['b']]
          WritePoint.afterDelete) 1 =
        readFileRows [Row.mk 1 1 0 ['a'] [1]] 1 ∨
      readFileRows
        (writeChunksInterrupted [Row.mk 1 1 0 ['a'] [1]] 1 1 0 [['b']]
          WritePoint.afterDelete) 1 = []) ∧
    readFileRows (writeChunks [Row.mk 1 1 0 ['a'] [1]] 1 1 0 [['b']]) 2 =
      readFileRows [Row.mk 1 1 0 ['a'] [1]] 2 :=
  ⟨(claim_C5_writer_atomic_replace [Row.mk 1 1 0 ['a'] [1]] 1 1 0 [['b']]
      WritePoint.afterDelete).1 (by decide),
   (claim_C5_writer_atomic_replace [Row.mk 1 1 0 ['a'] [1]] 1 1 0 [['b']]
      WritePoint.afterDelete).2.2 2 (by decide)⟩

/-- Claim C6 counterexample: two chunks of the same workspace share the
vector `[0]`; querying with that vector (the vector of the
later-inserted chunk `C`) returns the earlier-inserted chunk first, not
`C`, although `C` is in the workspace and `k = 1 ≥ 1`. -/
theorem claim_C6_counterexample :
    Row.mk 1 1 1 ['b'] [0] ∈
        filterWs 1 [Row.mk 1 1 0 ['a'] [0], Row.mk 1 1 1 ['b'] [0]] ∧
      (1 : Nat) ≤ 1 ∧
      (retrieve [Row.mk 1 1 0 ['a'] [0], Row.mk 1 1 1 ['b'] [0]] 1
          (Row.mk 1 1 1 ['b'] [0]).vec 1).head? ≠
        some (Row.mk 1 1 1 ['b'] [0]) := by
  decide

/-- Claim C6 (amended): querying a workspace containing chunk `C` with
`C`'s own vector and `k ≥ 1` returns first the *earliest-inserted*
chunk of the workspace at distance zero (which is `C` itself whenever
`C` is the earliest chunk with that vector), and that first result has
distance zero; chunks at equal distance always appear in insertion
order. -/
theorem claim_C6_retriever_ranking (store : List Row) (wid k : Nat)
    (C : Row) (hC : C ∈ filterWs wid store) (hk : 1 ≤ k) :
    (∃ C0,
      (filterWs wid store).find? (fun r => dist2 C.vec r.vec == 0) = some C0 ∧
      (retrieve store wid C.vec k).head? = some C0 ∧
      dist2 C.vec C0.vec = 0) ∧
    ∀ n, (sortByDist C.vec (filterWs wid store)).filter
          (fun r => dist2 C.vec r.vec == n) =
        (filterWs wid store).filter (fun r => dist2 C.vec r.vec == n) := by
  constructor
  · have hCz : (fun r => dist2 C.vec r.vec == 0) C = true := by
      simp [dist2_self]
    obtain ⟨C0, hC0⟩ := find?_exists_of_mem
      (fun r => dist2 C.vec r.vec == 0) (filterWs wid store) C hC hCz
    refine ⟨C0, hC0, ?_, ?_⟩
    · unfold retrieve
      rw [head?_take k hk]
      exact head?_sortByDist_find C.vec (filterWs wid store) C0 hC0
    · have hp := List.find?_some hC0
      simpa using hp
  · intro n
    exact filter_sortByDist C.vec n (filterWs wid store)

theorem claim_C6_witness :
    (∃ C0,
      (filterWs 1 [Row.mk 1 1 0 ['a'] [2]]).find?
          (fun r => dist2 (Row.mk 1 1 0 ['a'] [2]).vec r.vec == 0) = some C0 ∧
      (retrieve [Row.mk 1 1 0 ['a'] [2]] 1 (Row.mk 1 1 0 ['a'] [2]).vec
          1).head? = some C0 ∧
      dist2 (Row.mk 1 1 0 ['a'] [2]).vec C0.vec = 0) ∧
    ∀ n, (sortByDist (Row.mk 1 1 0 ['a'] [2]).vec
            (filterWs 1 [Row.mk 1 1 0 ['a'] [2]])).filter
          (fun r => dist2 (Row.mk 1 1 0 ['a'] [2]).vec r.vec == n) =
        (filterWs 1 [Row.mk 1 1 0 ['a'] [2]]).filter
          (fun r => dist2 (Row.mk 1 1 0 ['a'] [2]).vec r.vec == n) :=
  claim_C6_retriever_ranking [Row.mk 1 1 0 ['a'] [2]] 1 1
    (Row.mk 1 1 0 ['a'] [2]) (by decide) (by decide)

/-- Claim C7: retrieval is workspace-scoped — every returned row belongs
to the queried workspace; the result length is `min k` the number of
eligible rows (so fewer than `k` when the workspace has fewer chunks);
an empty workspace yields the empty sequence, not an error. -/
theorem claim_C7_retriever_scoping (store : List Row) (wid : Nat)
    (q : List Int) (k : Nat) :
    (∀ r ∈ retrieve store wid q k, r.workspaceId = wid) ∧
    (retrieve store wid q k).length = min k (filterWs wid store).length ∧
    (filterWs wid store = [] → retrieve store wid q k = []) := by
  refine ⟨?_, ?_, ?_⟩
  · intro r hr
    have hr1 : r ∈ sortByDist q (filterWs wid store) := List.mem_of_mem_take hr
    have hr2 : r ∈ filterWs wid store := (mem_sortByDist q _ r).mp hr1
    unfold filterWs at hr2
    have hw := (List.mem_filter.mp hr2).2
    simpa using hw
  · unfold retrieve
    rw [List.length_take, length_sortByDist]
  · intro hempty
    unfold retrieve
    rw [hempty]
    simp [sortByDist]

theorem claim_C7_witness :
    (Row.mk 1 1 0 ['a'] [1]).workspaceId = 1 ∧
      retrieve [Row.mk 1 1 0 ['a'] [1]] 2 [0] 3 = [] :=
  ⟨(claim_C7_retriever_scoping [Row.mk 1 1 0 ['a'] [1]] 1 [0] 3).1
      (Row.mk 1 1 0 ['a'] [1]) (by decide),
   (claim_C7_retriever_scoping [Row.mk 1 1 0 ['a'] [1]] 2 [0] 3).2.2
      (by decide)⟩

/-- Claim C8: embedding is deterministic — the same text under the same
model version yields the identical vector (hence at distance zero), of
the model's fixed dimension. -/
theorem claim_C8_embedding_deterministic (model : Nat) (t1 t2 : List Char)
    (h : t1 = t2) :
    embed model t1 = embed model t2 ∧
    dist2 (embed model t1) (embed model t2) = 0 ∧
    (embed model t1).length = embedDim model := by
  subst h
  exact ⟨rfl, dist2_self (embed model t1), length_embed model t1⟩

theorem claim_C8_witness :
    (['h', 'i'] : List Char) = ['h', 'i'] ∧
      (embed 0 ['h', 'i'] = embed 0 ['h', 'i'] ∧
        dist2 (embed 0 ['h', 'i']) (embed 0 ['h', 'i']) = 0 ∧
        (embed 0 ['h', 'i']).length = embedDim 0) :=
  ⟨rfl, claim_C8_embedding_deterministic 0 ['h', 'i'] ['h', 'i'] rfl⟩

/-- Claim C9: confirming deletion of a message is atomic with respect to
the local list — when the database delete resolves, `chatMessages`
becomes exactly the prior list with every entry of the deleted id
removed; when it throws, `chatMessages` is unchanged. -/
theorem claim_C9_delete_atomicity (st : ChatState) (mid : List Char)
    (hmid : st.deletingMessageId = some mid) (hne : mid ≠ []) :
    (confirmDeleteMessage st true).chatMessages =
      st.chatMessages.filter (fun m => !(m.message.id == mid)) ∧
    (confirmDeleteMessage st false).chatMessages = st.chatMessages := by
  unfold confirmDeleteMessage
  rw [hmid]
  simp [hne]

theorem claim_C9_witness :
    (ChatState.mk [ChatMessageT.mk (MessageT.mk ['x'] 0) []] true
        (some ['x'])).deletingMessageId = some ['x'] ∧
      (['x'] : List Char) ≠ [] ∧
      (confirmDeleteMessage
          (ChatState.mk [ChatMessageT.mk (MessageT.mk ['x'] 0) []] true
            (some ['x'])) true).chatMessages =
        (ChatState.mk [ChatMessageT.mk (MessageT.mk ['x'] 0) []] true
            (some ['x'])).chatMessages.filter
          (fun m => !(m.message.id == ['x'])) :=
  ⟨rfl, by decide,
   (claim_C9_delete_atomicity
      (ChatState.mk [ChatMessageT.mk (MessageT.mk ['x'] 0) []] true
        (some ['x'])) ['x'] rfl (by decide)).1⟩

/-- Claim C10: the file items passed to each rendered message are exactly
the elements of `chatFileItems` whose id appears in the message's
file-item id list, duplicates removed keeping only the first occurrence
of each id. -/
theorem claim_C10_message_file_items (chatFileItems : List FileItemT)
    (ids : List (List Char)) :
    messageFileItems chatFileItems ids = specFileItems chatFileItems ids :=
  messageFileItems_eq_spec chatFileItems ids

end Junie


